import Mathlib

/-!
Verification of the bank-teller queueing simulation (`DTA_projekt.py`).

The Python program is a SimPy discrete-event simulation of an M/M/c queue
with balking and reneging.  We embed it shallowly: simulated time and all
drawn durations are rationals, the pseudo-random stream is an explicit
input `s : ℕ → ℚ` giving the successive results of the program's
`random.expovariate` calls (consumed left to right in program order), and
the SimPy event loop is a step function on an explicit simulation state.
Events carry a `(time, priority, insertion id)` key exactly as SimPy's heap
does (process-initialization events are URGENT = 0, timeouts and resumptions
are NORMAL = 1), so same-time ties resolve the way SimPy resolves them.
-/

namespace Queueing

/-! ## Configuration constants (lines 7-13 of the source) -/

def RANDOM_SEED : ℕ := 10
def NUM_TELLERS : ℕ := 2
def INTER_ARRIVAL_TIME : ℚ := 2
def SERVICE_TIME : ℚ := 5
def MAX_QUEUE_LENGTH : ℕ := 3
def MAX_WAIT_TIME : ℚ := 6
def SIMULATION_TIME : ℚ := 100

/-- The configuration record consumed by a run (capacity, balking threshold,
patience, horizon).  The exponential-distribution means do not appear in the
dynamics because the stream already contains the drawn values. -/
structure Config where
  numTellers : ℕ
  maxQueueLength : ℕ
  maxWaitTime : ℚ
  simulationTime : ℚ
deriving DecidableEq

/-- The configuration actually used by the program. -/
def defaultConfig : Config :=
  { numTellers := NUM_TELLERS
    maxQueueLength := MAX_QUEUE_LENGTH
    maxWaitTime := MAX_WAIT_TIME
    simulationTime := SIMULATION_TIME }

/-! ## Events -/

/-- Pending continuations, one constructor per suspension point of the
Python processes:

* `genStart`: first body segment of `customer_generator` (draws the first
  inter-arrival delay);
* `genWake`: `customer_generator` resuming after its timeout (spawn customer
  `i+1`, draw next delay);
* `custStart c`: process-initialization of `customer` number `c` (the balk
  check and the `bank.request()`);
* `custGranted c arrival`: the customer resuming because its request was
  granted (record wait time, the two service draws of lines 45-46);
* `custPatience c`: the customer's patience timeout of line 39;
* `custDone c`: the customer resuming after the service timeout of line 46
  (increment served, release the teller);
* `monWake`: one step of `monitor_queue_length`. -/
inductive Payload where
  | genStart : Payload
  | genWake : Payload
  | custStart : ℕ → Payload
  | custGranted : ℕ → ℚ → Payload
  | custPatience : ℕ → Payload
  | custDone : ℕ → Payload
  | monWake : Payload
deriving DecidableEq

/-- A scheduled event: due time, SimPy priority (0 = URGENT for process
initialization, 1 = NORMAL for timeouts/resumptions), insertion id, payload. -/
structure Ev where
  time : ℚ
  prio : ℕ
  eid : ℕ
  pl : Payload
deriving DecidableEq

/-- SimPy's heap order on `(time, priority, eid)`. -/
def evBefore (a b : Ev) : Bool :=
  if a.time < b.time then true
  else if b.time < a.time then false
  else if a.prio < b.prio then true
  else if b.prio < a.prio then false
  else decide (a.eid < b.eid)

/-- Insert an event into the sorted pending-event list. -/
def insertEv (e : Ev) : List Ev → List Ev
  | [] => [e]
  | x :: xs => if evBefore e x then e :: x :: xs else x :: insertEv e xs

/-! ## Ghost trace -/

/-- Ghost log of the observable per-customer happenings, recorded in event
processing order: customer `c` balked at `t`, had its request granted at `t`,
reneged at `t`, finished service at `t`, or had its (already irrelevant)
patience timeout processed at `t` after the race was decided. -/
inductive LogEntry where
  | balkedAt : ℕ → ℚ → LogEntry
  | grantedAt : ℕ → ℚ → LogEntry
  | renegedAt : ℕ → ℚ → LogEntry
  | doneAt : ℕ → ℚ → LogEntry
  | staleAt : ℕ → ℚ → LogEntry
deriving DecidableEq

/-! ## Simulation state -/

/-- The whole mutable state of one `run_simulation()` call: the clock, the
sorted pending-event list, the id counters, the position in the random
stream, the resource pool (`held` units and the FIFO `waitList` of
`(customer, arrival time)` pairs, which is SimPy's `bank.queue`), the
global counters of lines 18-23, and the ghost log. -/
structure SimState where
  now : ℚ
  queue : List Ev
  nextEid : ℕ
  nextCust : ℕ
  streamIdx : ℕ
  held : ℕ
  waitList : List (ℕ × ℚ)
  balked : ℕ
  reneged : ℕ
  served : ℕ
  waitingTimes : List ℚ
  queueLengths : List ℕ
  busy : ℚ
  log : List LogEntry
deriving DecidableEq

/-- Schedule a new event at time `t` with priority `prio`, taking the next
insertion id. -/
def sched (t : ℚ) (prio : ℕ) (pl : Payload) (st : SimState) : SimState :=
  { st with queue := insertEv ⟨t, prio, st.nextEid, pl⟩ st.queue
            nextEid := st.nextEid + 1 }

/-- Remove the first wait-list entry of customer `c` (SimPy's cancellation of
a pending request when the `with` block of a reneging customer exits). -/
def dropReq (c : ℕ) : List (ℕ × ℚ) → List (ℕ × ℚ)
  | [] => []
  | p :: rest => if p.1 = c then rest else p :: dropReq c rest

/-- Process one popped event.  `st` already has the event removed from
`queue` and `now` advanced to the event's due time.  Each branch is the
translation of the corresponding resumption of a Python process. -/
def handleEv (cfg : Config) (s : ℕ → ℚ) (e : Ev) (st : SimState) : SimState :=
  match e.pl with
  | .genStart =>
      -- generator body start: draw first inter-arrival delay (line 56)
      sched (st.now + s st.streamIdx) 1 .genWake
        { st with streamIdx := st.streamIdx + 1 }
  | .genWake =>
      -- lines 56-58: i += 1, spawn customer i, draw next delay
      let c := st.nextCust + 1
      let st1 : SimState := sched st.now 0 (.custStart c) { st with nextCust := c }
      sched (st1.now + s st1.streamIdx) 1 .genWake
        { st1 with streamIdx := st1.streamIdx + 1 }
  | .custStart c =>
      if cfg.maxQueueLength ≤ st.waitList.length then
        -- lines 32-34: balk
        { st with balked := st.balked + 1
                  log := st.log ++ [.balkedAt c st.now] }
      else if st.held < cfg.numTellers then
        -- line 37: request granted synchronously; line 39 creates the
        -- patience timeout in any case
        let st1 : SimState := sched st.now 1 (.custGranted c st.now) { st with held := st.held + 1 }
        sched (st.now + cfg.maxWaitTime) 1 (.custPatience c) st1
      else
        -- request joins the FIFO wait list, racing the patience timeout
        let st1 : SimState := { st with waitList := st.waitList ++ [(c, st.now)] }
        sched (st.now + cfg.maxWaitTime) 1 (.custPatience c) st1
  | .custGranted c arrival =>
      -- lines 43-46: record the wait, add an independent draw to busy time,
      -- then hold the teller for a second independent draw
      let st1 : SimState :=
        { st with waitingTimes := st.waitingTimes ++ [st.now - arrival]
                  busy := st.busy + s st.streamIdx
                  streamIdx := st.streamIdx + 2
                  log := st.log ++ [.grantedAt c st.now] }
      sched (st.now + s (st.streamIdx + 1)) 1 (.custDone c) st1
  | .custPatience c =>
      if st.waitList.any (fun p => p.1 == c) then
        -- lines 48-50: renege, withdrawing the request from the wait list
        { st with waitList := dropReq c st.waitList
                  reneged := st.reneged + 1
                  log := st.log ++ [.renegedAt c st.now] }
      else
        -- the race was already won by the grant: the timeout still fires
        -- (SimPy never cancels it) but has no effect
        { st with log := st.log ++ [.staleAt c st.now] }
  | .custDone c =>
      -- line 47 and the `with` exit: served += 1, release the teller and
      -- grant it to the earliest waiting request, if any
      let st1 : SimState :=
        { st with served := st.served + 1
                  held := st.held - 1
                  log := st.log ++ [.doneAt c st.now] }
      match st1.waitList with
      | [] => st1
      | (r, arr) :: rest =>
          sched st1.now 1 (Payload.custGranted r arr)
            { st1 with waitList := rest, held := st1.held + 1 }
  | .monWake =>
      -- lines 62-64: sample len(bank.queue), sleep one time unit
      let st1 : SimState := { st with queueLengths := st.queueLengths ++ [st.waitList.length] }
      sched (st.now + 1) 1 .monWake st1

/-- One iteration of the event loop: pop the earliest pending event and
process it if it is due strictly before the horizon (SimPy's
`env.run(until=T)` stops at `T` before processing events due at `T`). -/
def stepOnce (cfg : Config) (s : ℕ → ℚ) (st : SimState) : SimState :=
  match st.queue with
  | [] => st
  | e :: rest =>
      if e.time < cfg.simulationTime then
        handleEv cfg s e { st with queue := rest, now := e.time }
      else st

/-- Run the event loop for at most `fuel` iterations. -/
def runSteps (cfg : Config) (s : ℕ → ℚ) : ℕ → SimState → SimState
  | 0, st => st
  | n + 1, st => runSteps cfg s n (stepOnce cfg s st)

/-- The state at the start of a run: zeroed counters (lines 18-23) and the
two initialization events of `env.process(customer_generator(...))` and
`env.process(monitor_queue_length(...))` (lines 69-70), in that order. -/
def initState : SimState :=
  { now := 0
    queue := [⟨0, 0, 0, .genStart⟩, ⟨0, 0, 1, .monWake⟩]
    nextEid := 2
    nextCust := 0
    streamIdx := 0
    held := 0
    waitList := []
    balked := 0
    reneged := 0
    served := 0
    waitingTimes := []
    queueLengths := []
    busy := 0
    log := [] }

/-- One simulation run (lines 16-71), driven by the random stream `s`, with
an explicit bound `fuel` on the number of processed events. -/
def run_simulation (cfg : Config) (s : ℕ → ℚ) (fuel : ℕ) : SimState :=
  runSteps cfg s fuel initState

/-- A run is complete when every still-pending event is due at or after the
horizon, i.e. the event loop has genuinely reached `env.run(until=T)`'s end. -/
def completedRun (cfg : Config) (st : SimState) : Bool :=
  st.queue.all fun e => decide (cfg.simulationTime ≤ e.time)

/-! ## The per-run result record and the metrics of lines 85-88 -/

structure RunResult where
  served : ℕ
  balked : ℕ
  reneged : ℕ
  waitTimes : List ℚ
  queueLengths : List ℕ
  busy : ℚ
deriving DecidableEq

def runResult (st : SimState) : RunResult :=
  { served := st.served
    balked := st.balked
    reneged := st.reneged
    waitTimes := st.waitingTimes
    queueLengths := st.queueLengths
    busy := st.busy }

/-- Line 85: `throughput = served_customers / SIMULATION_TIME`. -/
def throughput (r : RunResult) : ℚ := (r.served : ℚ) / SIMULATION_TIME

/-- Line 86: `sum(waiting_times) / len(waiting_times) if waiting_times else 0`. -/
def avg_waiting_time (r : RunResult) : ℚ :=
  if r.waitTimes = [] then 0 else r.waitTimes.sum / (r.waitTimes.length : ℚ)

/-- Line 87: `sum(queue_lengths) / len(queue_lengths) if queue_lengths else 0`. -/
def avg_queue_length (r : RunResult) : ℚ :=
  if r.queueLengths = [] then 0
  else ((r.queueLengths.map fun q => (q : ℚ)).sum) / (r.queueLengths.length : ℚ)

/-- Line 88: `total_time_tellers_busy / (NUM_TELLERS * SIMULATION_TIME)`. -/
def server_utilization (r : RunResult) : ℚ :=
  r.busy / ((NUM_TELLERS : ℚ) * SIMULATION_TIME)

/-- The hold duration of each completed service in a run's log: for every
`doneAt c t` entry, the elapsed time since that customer's grant. -/
def grantTimeOf (c : ℕ) : List LogEntry → Option ℚ
  | [] => none
  | .grantedAt c' t :: rest => if c' = c then some t else grantTimeOf c rest
  | _ :: rest => grantTimeOf c rest

/-- Sum of the actual durations the tellers were held by customers whose
service completed within the run. -/
def servedHoldSum (log : List LogEntry) : ℚ :=
  (log.filterMap fun e =>
    match e with
    | .doneAt c t => (grantTimeOf c log).map fun t0 => t - t0
    | _ => none).sum

/-! ## Counting helpers over the pending-event list -/

/-- Number of pending events whose payload satisfies `k`. -/
def qcount (k : Payload → Bool) (q : List Ev) : ℕ :=
  q.countP fun e => k e.pl

theorem qcount_nil (k : Payload → Bool) : qcount k [] = 0 := rfl

theorem qcount_cons (k : Payload → Bool) (e : Ev) (q : List Ev) :
    qcount k (e :: q) = qcount k q + (if k e.pl then 1 else 0) := by
  simp [qcount, List.countP_cons]

theorem qcount_insertEv (k : Payload → Bool) (e : Ev) (q : List Ev) :
    qcount k (insertEv e q) = qcount k q + (if k e.pl then 1 else 0) := by
  induction q with
  | nil => simp [insertEv, qcount, List.countP_cons]
  | cons x xs ih =>
      rw [insertEv]
      split
      · rw [qcount_cons, qcount_cons]
      · rw [qcount_cons, ih, qcount_cons]
        omega

theorem mem_insertEv {a e : Ev} {q : List Ev} :
    a ∈ insertEv e q ↔ a = e ∨ a ∈ q := by
  induction q with
  | nil => simp [insertEv]
  | cons x xs ih =>
      rw [insertEv]
      split
      · simp only [List.mem_cons]
      · simp only [List.mem_cons, ih]
        tauto

theorem length_dropReq_le (c : ℕ) (l : List (ℕ × ℚ)) :
    (dropReq c l).length ≤ l.length := by
  induction l with
  | nil => simp [dropReq]
  | cons p rest ih =>
      rw [dropReq]
      split
      · simp
      · simpa using Nat.succ_le_succ ih

theorem length_dropReq_of_mem (c : ℕ) (l : List (ℕ × ℚ))
    (h : l.any (fun p => p.1 == c) = true) :
    (dropReq c l).length + 1 = l.length := by
  induction l with
  | nil => simp at h
  | cons p rest ih =>
      rw [dropReq]
      by_cases hp : p.1 = c
      · simp [hp]
      · simp only [if_neg hp, List.length_cons]
        simp only [List.any_cons, Bool.or_eq_true, beq_iff_eq] at h
        rcases h with h | h
        · exact absurd h hp
        · rw [← ih h]

theorem countP_dropReq_self (c : ℕ) (l : List (ℕ × ℚ))
    (h : l.any (fun p => p.1 == c) = true) :
    (dropReq c l).countP (fun p => p.1 == c) + 1 = l.countP (fun p => p.1 == c) := by
  induction l with
  | nil => simp at h
  | cons p rest ih =>
      rw [dropReq]
      by_cases hp : p.1 = c
      · simp [List.countP_cons, hp]
      · simp only [List.any_cons, Bool.or_eq_true, beq_iff_eq] at h
        rcases h with h | h
        · exact absurd h hp
        · simp only [if_neg hp, List.countP_cons]
          have := ih h
          simp only [beq_iff_eq, if_neg hp]
          omega

theorem countP_dropReq_ne (c c' : ℕ) (hne : c' ≠ c) (l : List (ℕ × ℚ)) :
    (dropReq c l).countP (fun p => p.1 == c') = l.countP (fun p => p.1 == c') := by
  induction l with
  | nil => simp [dropReq]
  | cons p rest ih =>
      rw [dropReq]
      by_cases hp : p.1 = c
      · have hpc : ¬ p.1 = c' := fun hc => hne (by rw [← hc, hp])
        simp only [if_pos hp, List.countP_cons, beq_iff_eq, if_neg hpc]
        omega
      · simp only [if_neg hp, List.countP_cons, ih]

/-! ## The accounting invariant: every generated arrival is in exactly one
place (a pending event, the wait list, or one of the three counters) -/

def isStartEv : Payload → Bool
  | .custStart _ => true
  | _ => false

def isGrantedEv : Payload → Bool
  | .custGranted _ _ => true
  | _ => false

def isDoneEv : Payload → Bool
  | .custDone _ => true
  | _ => false

def isMonEv : Payload → Bool
  | .monWake => true
  | _ => false

/-- `nextCust` is the number of arrivals generated so far (`i` in the code);
each arrival is accounted for exactly once: already balked, reneged or
served, or still pending as an initialization event, a wait-list entry, a
grant resumption, or an in-service completion event. -/
def accounting (st : SimState) : Prop :=
  st.nextCust = st.balked + st.reneged + st.served
    + qcount isStartEv st.queue + st.waitList.length
    + qcount isGrantedEv st.queue + qcount isDoneEv st.queue

theorem accounting_stepOnce (cfg : Config) (s : ℕ → ℚ) (st : SimState)
    (h : accounting st) : accounting (stepOnce cfg s st) := by
  unfold accounting at h ⊢
  rcases hq : st.queue with _ | ⟨e, rest⟩
  · simpa [stepOnce, hq] using h
  · obtain ⟨t, pr, eid, pl⟩ := e
    rw [hq, qcount_cons, qcount_cons, qcount_cons] at h
    by_cases ht : t < cfg.simulationTime
    · cases pl with
      | genStart =>
          simp only [stepOnce, hq, if_pos ht, handleEv, sched]
          simp [qcount_insertEv, isStartEv, isGrantedEv, isDoneEv] at h ⊢
          omega
      | genWake =>
          simp only [stepOnce, hq, if_pos ht, handleEv, sched]
          simp [qcount_insertEv, isStartEv, isGrantedEv, isDoneEv] at h ⊢
          omega
      | custStart c =>
          simp only [stepOnce, hq, if_pos ht, handleEv]
          by_cases h1 : cfg.maxQueueLength ≤ st.waitList.length
          · simp [if_pos h1, isStartEv, isGrantedEv, isDoneEv] at h ⊢
            omega
          · by_cases h2 : st.held < cfg.numTellers
            · simp [if_neg h1, if_pos h2, sched, qcount_insertEv,
                isStartEv, isGrantedEv, isDoneEv] at h ⊢
              omega
            · simp [if_neg h1, if_neg h2, sched, qcount_insertEv,
                List.length_append, isStartEv, isGrantedEv, isDoneEv] at h ⊢
              omega
      | custGranted c arr =>
          simp only [stepOnce, hq, if_pos ht, handleEv, sched]
          simp [qcount_insertEv, isStartEv, isGrantedEv, isDoneEv] at h ⊢
          omega
      | custPatience c =>
          simp only [stepOnce, hq, if_pos ht, handleEv]
          by_cases hw : st.waitList.any (fun p => p.1 == c) = true
          · simp [if_pos hw, isStartEv, isGrantedEv, isDoneEv] at h ⊢
            have hlen := length_dropReq_of_mem c st.waitList hw
            omega
          · simp [if_neg hw, isStartEv, isGrantedEv, isDoneEv] at h ⊢
            omega
      | custDone c =>
          simp only [stepOnce, hq, if_pos ht, handleEv]
          rcases hwl : st.waitList with _ | ⟨⟨r, arr⟩, wrest⟩
          · simp [hwl, isStartEv, isGrantedEv, isDoneEv] at h ⊢
            omega
          · simp [hwl, sched, qcount_insertEv,
              isStartEv, isGrantedEv, isDoneEv] at h ⊢
            omega
      | monWake =>
          simp only [stepOnce, hq, if_pos ht, handleEv, sched]
          simp [qcount_insertEv, isStartEv, isGrantedEv, isDoneEv] at h ⊢
          omega
    · simpa [stepOnce, hq, if_neg ht, qcount_cons] using h

theorem accounting_runSteps (cfg : Config) (s : ℕ → ℚ) (fuel : ℕ) (st : SimState)
    (h : accounting st) : accounting (runSteps cfg s fuel st) := by
  induction fuel generalizing st with
  | zero => exact h
  | succ n ih => exact ih _ (accounting_stepOnce cfg s st h)

theorem accounting_run (cfg : Config) (s : ℕ → ℚ) (fuel : ℕ) :
    accounting (run_simulation cfg s fuel) :=
  accounting_runSteps cfg s fuel initState (by simp [accounting, initState, qcount, isStartEv, isGrantedEv, isDoneEv])

/-! ## The resource-pool invariant: held units match in-flight grants and
never exceed capacity -/

/-- The number of held teller units equals the number of pending grant
resumptions plus the number of customers in service, and it never exceeds
the capacity. -/
def heldInv (cfg : Config) (st : SimState) : Prop :=
  st.held = qcount isGrantedEv st.queue + qcount isDoneEv st.queue ∧
  st.held ≤ cfg.numTellers

theorem heldInv_stepOnce (cfg : Config) (s : ℕ → ℚ) (st : SimState)
    (h : heldInv cfg st) : heldInv cfg (stepOnce cfg s st) := by
  unfold heldInv at h ⊢
  rcases hq : st.queue with _ | ⟨e, rest⟩
  · simpa [stepOnce, hq] using h
  · obtain ⟨t, pr, eid, pl⟩ := e
    rw [hq, qcount_cons, qcount_cons] at h
    by_cases ht : t < cfg.simulationTime
    · cases pl with
      | genStart =>
          simp only [stepOnce, hq, if_pos ht, handleEv, sched]
          simp [qcount_insertEv, isGrantedEv, isDoneEv] at h ⊢
          omega
      | genWake =>
          simp only [stepOnce, hq, if_pos ht, handleEv, sched]
          simp [qcount_insertEv, isGrantedEv, isDoneEv] at h ⊢
          omega
      | custStart c =>
          simp only [stepOnce, hq, if_pos ht, handleEv]
          by_cases h1 : cfg.maxQueueLength ≤ st.waitList.length
          · simp [if_pos h1, isGrantedEv, isDoneEv] at h ⊢
            omega
          · by_cases h2 : st.held < cfg.numTellers
            · simp [if_neg h1, if_pos h2, sched, qcount_insertEv,
                isGrantedEv, isDoneEv] at h ⊢
              omega
            · simp [if_neg h1, if_neg h2, sched, qcount_insertEv,
                isGrantedEv, isDoneEv] at h ⊢
              omega
      | custGranted c arr =>
          simp only [stepOnce, hq, if_pos ht, handleEv, sched]
          simp [qcount_insertEv, isGrantedEv, isDoneEv] at h ⊢
          omega
      | custPatience c =>
          simp only [stepOnce, hq, if_pos ht, handleEv]
          by_cases hw : st.waitList.any (fun p => p.1 == c) = true
          · simp [if_pos hw, isGrantedEv, isDoneEv] at h ⊢
            omega
          · simp [if_neg hw, isGrantedEv, isDoneEv] at h ⊢
            omega
      | custDone c =>
          simp only [stepOnce, hq, if_pos ht, handleEv]
          rcases hwl : st.waitList with _ | ⟨⟨r, arr⟩, wrest⟩
          · simp [hwl, isGrantedEv, isDoneEv] at h ⊢
            omega
          · simp [hwl, sched, qcount_insertEv, isGrantedEv, isDoneEv] at h ⊢
            omega
      | monWake =>
          simp only [stepOnce, hq, if_pos ht, handleEv, sched]
          simp [qcount_insertEv, isGrantedEv, isDoneEv] at h ⊢
          omega
    · simpa [stepOnce, hq, if_neg ht, qcount_cons] using h

theorem heldInv_runSteps (cfg : Config) (s : ℕ → ℚ) (fuel : ℕ) (st : SimState)
    (h : heldInv cfg st) : heldInv cfg (runSteps cfg s fuel st) := by
  induction fuel generalizing st with
  | zero => exact h
  | succ n ih => exact ih _ (heldInv_stepOnce cfg s st h)

theorem heldInv_run (cfg : Config) (s : ℕ → ℚ) (fuel : ℕ) :
    heldInv cfg (run_simulation cfg s fuel) :=
  heldInv_runSteps cfg s fuel initState
    (by simp [heldInv, initState, qcount, isGrantedEv, isDoneEv])

/-! ## Wait-time bookkeeping: one wait time per grant, recorded before the
service completes -/

/-- A wait time is appended exactly when a grant resumption is processed,
while `served` is only incremented when the corresponding completion event
is processed, so `served` plus in-service customers equals the number of
recorded wait times. -/
def waitCountInv (st : SimState) : Prop :=
  st.served + qcount isDoneEv st.queue = st.waitingTimes.length

theorem waitCountInv_stepOnce (cfg : Config) (s : ℕ → ℚ) (st : SimState)
    (h : waitCountInv st) : waitCountInv (stepOnce cfg s st) := by
  unfold waitCountInv at h ⊢
  rcases hq : st.queue with _ | ⟨e, rest⟩
  · simpa [stepOnce, hq] using h
  · obtain ⟨t, pr, eid, pl⟩ := e
    rw [hq, qcount_cons] at h
    by_cases ht : t < cfg.simulationTime
    · cases pl with
      | genStart =>
          simp only [stepOnce, hq, if_pos ht, handleEv, sched]
          simp [qcount_insertEv, isDoneEv] at h ⊢
          omega
      | genWake =>
          simp only [stepOnce, hq, if_pos ht, handleEv, sched]
          simp [qcount_insertEv, isDoneEv] at h ⊢
          omega
      | custStart c =>
          simp only [stepOnce, hq, if_pos ht, handleEv]
          by_cases h1 : cfg.maxQueueLength ≤ st.waitList.length
          · simp [if_pos h1, isDoneEv] at h ⊢
            omega
          · by_cases h2 : st.held < cfg.numTellers
            · simp [if_neg h1, if_pos h2, sched, qcount_insertEv, isDoneEv] at h ⊢
              omega
            · simp [if_neg h1, if_neg h2, sched, qcount_insertEv, isDoneEv] at h ⊢
              omega
      | custGranted c arr =>
          simp only [stepOnce, hq, if_pos ht, handleEv, sched]
          simp [qcount_insertEv, isDoneEv] at h ⊢
          omega
      | custPatience c =>
          simp only [stepOnce, hq, if_pos ht, handleEv]
          by_cases hw : st.waitList.any (fun p => p.1 == c) = true
          · simp [if_pos hw, isDoneEv] at h ⊢
            omega
          · simp [if_neg hw, isDoneEv] at h ⊢
            omega
      | custDone c =>
          simp only [stepOnce, hq, if_pos ht, handleEv]
          rcases hwl : st.waitList with _ | ⟨⟨r, arr⟩, wrest⟩
          · simp [hwl, isDoneEv] at h ⊢
            omega
          · simp [hwl, sched, qcount_insertEv, isDoneEv] at h ⊢
            omega
      | monWake =>
          simp only [stepOnce, hq, if_pos ht, handleEv, sched]
          simp [qcount_insertEv, isDoneEv] at h ⊢
          omega
    · simpa [stepOnce, hq, if_neg ht, qcount_cons] using h

theorem waitCountInv_runSteps (cfg : Config) (s : ℕ → ℚ) (fuel : ℕ) (st : SimState)
    (h : waitCountInv st) : waitCountInv (runSteps cfg s fuel st) := by
  induction fuel generalizing st with
  | zero => exact h
  | succ n ih => exact ih _ (waitCountInv_stepOnce cfg s st h)

theorem waitCountInv_run (cfg : Config) (s : ℕ → ℚ) (fuel : ℕ) :
    waitCountInv (run_simulation cfg s fuel) :=
  waitCountInv_runSteps cfg s fuel initState
    (by simp [waitCountInv, initState, qcount, isDoneEv])

/-! ## Queue-length bounds: balking keeps the wait list, and hence every
monitor sample, at or below the threshold -/

def qlenInv (cfg : Config) (st : SimState) : Prop :=
  st.waitList.length ≤ cfg.maxQueueLength ∧
  ∀ q ∈ st.queueLengths, q ≤ cfg.maxQueueLength

theorem qlenInv_stepOnce (cfg : Config) (s : ℕ → ℚ) (st : SimState)
    (h : qlenInv cfg st) : qlenInv cfg (stepOnce cfg s st) := by
  unfold qlenInv at h ⊢
  rcases hq : st.queue with _ | ⟨e, rest⟩
  · simpa [stepOnce, hq] using h
  · obtain ⟨t, pr, eid, pl⟩ := e
    by_cases ht : t < cfg.simulationTime
    · cases pl with
      | genStart =>
          simpa [stepOnce, hq, if_pos ht, handleEv, sched] using h
      | genWake =>
          simpa [stepOnce, hq, if_pos ht, handleEv, sched] using h
      | custStart c =>
          simp only [stepOnce, hq, if_pos ht, handleEv]
          by_cases h1 : cfg.maxQueueLength ≤ st.waitList.length
          · simpa [if_pos h1] using h
          · by_cases h2 : st.held < cfg.numTellers
            · simpa [if_neg h1, if_pos h2, sched] using h
            · simp only [if_neg h1, if_pos h2, if_neg h2, sched]
              refine ⟨?_, h.2⟩
              simp only [List.length_append, List.length_cons, List.length_nil]
              omega
      | custGranted c arr =>
          simpa [stepOnce, hq, if_pos ht, handleEv, sched] using h
      | custPatience c =>
          simp only [stepOnce, hq, if_pos ht, handleEv]
          by_cases hw : st.waitList.any (fun p => p.1 == c) = true
          · simp only [if_pos hw]
            exact ⟨le_trans (length_dropReq_le c st.waitList) h.1, h.2⟩
          · simpa [if_neg hw] using h
      | custDone c =>
          simp only [stepOnce, hq, if_pos ht, handleEv]
          rcases hwl : st.waitList with _ | ⟨⟨r, arr⟩, wrest⟩
          · simpa [hwl] using h
          · rw [hwl] at h
            simp only [hwl, sched]
            refine ⟨?_, h.2⟩
            simp only [List.length_cons] at h
            exact le_trans (Nat.le_succ _) h.1
      | monWake =>
          simp only [stepOnce, hq, if_pos ht, handleEv, sched]
          refine ⟨h.1, ?_⟩
          intro q hqmem
          simp only [List.mem_append, List.mem_singleton] at hqmem
          rcases hqmem with hqmem | hqmem
          · exact h.2 q hqmem
          · exact hqmem ▸ h.1
    · simpa [stepOnce, hq, if_neg ht] using h

theorem qlenInv_runSteps (cfg : Config) (s : ℕ → ℚ) (fuel : ℕ) (st : SimState)
    (h : qlenInv cfg st) : qlenInv cfg (runSteps cfg s fuel st) := by
  induction fuel generalizing st with
  | zero => exact h
  | succ n ih => exact ih _ (qlenInv_stepOnce cfg s st h)

theorem qlenInv_run (cfg : Config) (s : ℕ → ℚ) (fuel : ℕ) :
    qlenInv cfg (run_simulation cfg s fuel) :=
  qlenInv_runSteps cfg s fuel initState (by simp [qlenInv, initState])

/-! ## Monitor bookkeeping: always exactly one pending monitor wake-up, due
exactly at (number of samples taken so far) time units -/

/-- The pending-event list `q` holds exactly one monitor wake-up and it is
due at time `len` (the number of samples taken so far). -/
def monOk (q : List Ev) (len : ℕ) : Prop :=
  qcount isMonEv q = 1 ∧ ∀ e ∈ q, e.pl = .monWake → e.time = (len : ℚ)

def monInv (st : SimState) : Prop :=
  monOk st.queue st.queueLengths.length

theorem isMonEv_eq_false {pl : Payload} (h : pl ≠ .monWake) : isMonEv pl = false := by
  cases pl <;> simp_all [isMonEv]

theorem monOk_insert {q : List Ev} {len : ℕ} {e : Ev} (h : monOk q len)
    (he : e.pl ≠ .monWake) : monOk (insertEv e q) len := by
  refine ⟨?_, ?_⟩
  · rw [qcount_insertEv, isMonEv_eq_false he]
    simpa using h.1
  · intro e' he' hpl
    rcases mem_insertEv.mp he' with rfl | he''
    · exact absurd hpl he
    · exact h.2 e' he'' hpl

theorem monOk_tail {e : Ev} {q : List Ev} {len : ℕ} (h : monOk (e :: q) len)
    (he : e.pl ≠ .monWake) : monOk q len := by
  refine ⟨?_, fun e' he' hpl => h.2 e' (List.mem_cons_of_mem _ he') hpl⟩
  have h1 := h.1
  rw [qcount_cons, isMonEv_eq_false he] at h1
  simpa using h1

theorem monInv_stepOnce (cfg : Config) (s : ℕ → ℚ) (st : SimState)
    (h : monInv st) : monInv (stepOnce cfg s st) := by
  unfold monInv at h ⊢
  rcases hq : st.queue with _ | ⟨e, rest⟩
  · simpa [stepOnce, hq] using h
  · obtain ⟨t, pr, eid, pl⟩ := e
    rw [hq] at h
    by_cases ht : t < cfg.simulationTime
    · cases pl with
      | genStart =>
          simp only [stepOnce, hq, if_pos ht, handleEv, sched]
          exact monOk_insert (monOk_tail h (by simp)) (by simp)
      | genWake =>
          simp only [stepOnce, hq, if_pos ht, handleEv, sched]
          exact monOk_insert (monOk_insert (monOk_tail h (by simp)) (by simp)) (by simp)
      | custStart c =>
          simp only [stepOnce, hq, if_pos ht, handleEv]
          by_cases h1 : cfg.maxQueueLength ≤ st.waitList.length
          · rw [if_pos h1]
            exact monOk_tail h (by simp)
          · by_cases h2 : st.held < cfg.numTellers
            · rw [if_neg h1, if_pos h2]
              simp only [sched]
              exact monOk_insert (monOk_insert (monOk_tail h (by simp)) (by simp)) (by simp)
            · rw [if_neg h1, if_neg h2]
              simp only [sched]
              exact monOk_insert (monOk_tail h (by simp)) (by simp)
      | custGranted c arr =>
          simp only [stepOnce, hq, if_pos ht, handleEv, sched]
          exact monOk_insert (monOk_tail h (by simp)) (by simp)
      | custPatience c =>
          simp only [stepOnce, hq, if_pos ht, handleEv]
          by_cases hw : st.waitList.any (fun p => p.1 == c) = true
          · rw [if_pos hw]
            exact monOk_tail h (by simp)
          · rw [if_neg hw]
            exact monOk_tail h (by simp)
      | custDone c =>
          simp only [stepOnce, hq, if_pos ht, handleEv]
          rcases hwl : st.waitList with _ | ⟨⟨r, arr⟩, wrest⟩
          · exact monOk_tail h (by simp)
          · simp only [sched]
            exact monOk_insert (monOk_tail h (by simp)) (by simp)
      | monWake =>
          simp only [stepOnce, hq, if_pos ht, handleEv, sched]
          have ht0 : t = (st.queueLengths.length : ℚ) :=
            h.2 _ (List.mem_cons_self _ _) rfl
          have hrest : qcount isMonEv rest = 0 := by
            have h1 := h.1
            rw [qcount_cons] at h1
            simp [isMonEv] at h1
            exact h1
          refine ⟨?_, ?_⟩
          · rw [qcount_insertEv]
            simp [isMonEv, hrest]
          · intro e' he' hpl
            rcases mem_insertEv.mp he' with rfl | he''
            · simp only [List.length_append, List.length_cons, List.length_nil, ht0]
              push_cast
              ring
            · exfalso
              rw [qcount, List.countP_eq_zero] at hrest
              exact hrest e' he'' (by simp [isMonEv, hpl])
    · simp only [stepOnce, hq, if_neg ht]
      exact h

theorem monInv_runSteps (cfg : Config) (s : ℕ → ℚ) (fuel : ℕ) (st : SimState)
    (h : monInv st) : monInv (runSteps cfg s fuel st) := by
  induction fuel generalizing st with
  | zero => exact h
  | succ n ih => exact ih _ (monInv_stepOnce cfg s st h)

theorem monInv_run (cfg : Config) (s : ℕ → ℚ) (fuel : ℕ) :
    monInv (run_simulation cfg s fuel) := by
  refine monInv_runSteps cfg s fuel initState ⟨?_, ?_⟩
  · simp [initState, qcount, isMonEv]
  · intro e he hpl
    simp only [initState, List.mem_cons, List.mem_singleton] at he
    rcases he with he | he | he
    · rw [he] at hpl
      simp at hpl
    · rw [he]
      simp [initState]
    · exact absurd he (List.not_mem_nil e)

/-- Effect of one step on the sample list: either unchanged, or (when the
popped event is a due monitor wake-up) one sample is appended. -/
theorem stepOnce_queueLengths (cfg : Config) (s : ℕ → ℚ) (st : SimState) :
    (stepOnce cfg s st).queueLengths = st.queueLengths ∨
    ((stepOnce cfg s st).queueLengths = st.queueLengths ++ [st.waitList.length] ∧
      ∃ pr eid t, st.queue.head? = some ⟨t, pr, eid, .monWake⟩ ∧
        t < cfg.simulationTime) := by
  rcases hq : st.queue with _ | ⟨e, rest⟩
  · left
    simp [stepOnce, hq]
  · obtain ⟨t, pr, eid, pl⟩ := e
    by_cases ht : t < cfg.simulationTime
    · cases pl with
      | genStart => left; simp [stepOnce, hq, if_pos ht, handleEv, sched]
      | genWake => left; simp [stepOnce, hq, if_pos ht, handleEv, sched]
      | custStart c =>
          left
          simp only [stepOnce, hq, if_pos ht, handleEv]
          by_cases h1 : cfg.maxQueueLength ≤ st.waitList.length
          · simp [if_pos h1]
          · by_cases h2 : st.held < cfg.numTellers
            · simp [if_neg h1, if_pos h2, sched]
            · simp [if_neg h1, if_neg h2, sched]
      | custGranted c arr => left; simp [stepOnce, hq, if_pos ht, handleEv, sched]
      | custPatience c =>
          left
          simp only [stepOnce, hq, if_pos ht, handleEv]
          by_cases hw : st.waitList.any (fun p => p.1 == c) = true
          · simp [if_pos hw]
          · simp [if_neg hw]
      | custDone c =>
          left
          simp only [stepOnce, hq, if_pos ht, handleEv]
          rcases hwl : st.waitList with _ | ⟨⟨r, arr⟩, wrest⟩
          · simp
          · simp [sched]
      | monWake =>
          right
          refine ⟨by simp [stepOnce, hq, if_pos ht, handleEv, sched], pr, eid, t, ?_, ht⟩
          simp [hq]
    · left
      simp [stepOnce, hq, if_neg ht]

/-- At the program's horizon of 100, at most 100 monitor samples are taken. -/
def monLenInv (st : SimState) : Prop :=
  monInv st ∧ st.queueLengths.length ≤ 100

theorem monLenInv_stepOnce (s : ℕ → ℚ) (st : SimState)
    (h : monLenInv st) : monLenInv (stepOnce defaultConfig s st) := by
  refine ⟨monInv_stepOnce defaultConfig s st h.1, ?_⟩
  rcases stepOnce_queueLengths defaultConfig s st with heq | ⟨heq, pr, eid, t, hhead, ht⟩
  · rw [heq]
    exact h.2
  · rw [heq]
    rcases hq : st.queue with _ | ⟨e, rest⟩
    · rw [hq] at hhead
      simp at hhead
    · rw [hq] at hhead
      simp only [List.head?_cons, Option.some_inj] at hhead
      have hmem : (⟨t, pr, eid, .monWake⟩ : Ev) ∈ st.queue := by
        rw [hq, ← hhead]
        exact List.mem_cons_self _ _
      have htlen : t = (st.queueLengths.length : ℚ) := h.1.2 _ hmem rfl
      have hT : (defaultConfig.simulationTime : ℚ) = ((100 : ℕ) : ℚ) := by
        norm_num [defaultConfig, SIMULATION_TIME]
      rw [htlen, hT] at ht
      have hlt : st.queueLengths.length < 100 := by exact_mod_cast ht
      simp only [List.length_append, List.length_cons, List.length_nil]
      omega

theorem monLenInv_runSteps (s : ℕ → ℚ) (fuel : ℕ) (st : SimState)
    (h : monLenInv st) : monLenInv (runSteps defaultConfig s fuel st) := by
  induction fuel generalizing st with
  | zero => exact h
  | succ n ih => exact ih _ (monLenInv_stepOnce s st h)

theorem monLenInv_run (s : ℕ → ℚ) (fuel : ℕ) :
    monLenInv (run_simulation defaultConfig s fuel) := by
  refine monLenInv_runSteps s fuel initState ⟨?_, by simp [initState]⟩
  have := monInv_run defaultConfig s 0
  simpa [run_simulation, runSteps] using this

/-! ## The zero-wait invariant: a positive recorded wait presupposes an
earlier completed service -/

/-- Every pending grant resumption is due exactly at the arrival time it
carries (true as long as nothing has been served: grants issued directly at
request time resume at the arrival instant, and grants handed over on a
release can only exist once `served` is positive). -/
def grantTimesOk (q : List Ev) : Prop :=
  ∀ e ∈ q, ∀ c arr, e.pl = .custGranted c arr → e.time = arr

theorem grantTimesOk_tail {e : Ev} {q : List Ev} (h : grantTimesOk (e :: q)) :
    grantTimesOk q :=
  fun e' he' c arr hpl => h e' (List.mem_cons_of_mem _ he') c arr hpl

theorem grantTimesOk_insert {q : List Ev} {e : Ev} (h : grantTimesOk q)
    (he : ∀ c arr, e.pl = .custGranted c arr → e.time = arr) :
    grantTimesOk (insertEv e q) := by
  intro e' he' c arr hpl
  rcases mem_insertEv.mp he' with rfl | he''
  · exact he c arr hpl
  · exact h e' he'' c arr hpl

/-- While no customer has completed service, every recorded wait time is 0. -/
def zeroWaitInv (st : SimState) : Prop :=
  st.served = 0 → (∀ w ∈ st.waitingTimes, w = 0) ∧ grantTimesOk st.queue

theorem zeroWaitInv_stepOnce (cfg : Config) (s : ℕ → ℚ) (st : SimState)
    (h : zeroWaitInv st) : zeroWaitInv (stepOnce cfg s st) := by
  rcases hq : st.queue with _ | ⟨e, rest⟩
  · simpa [stepOnce, hq] using h
  · obtain ⟨t, pr, eid, pl⟩ := e
    by_cases ht : t < cfg.simulationTime
    · cases pl with
      | genStart =>
          simp only [stepOnce, hq, if_pos ht, handleEv, sched]
          intro hs
          obtain ⟨hw, hg⟩ := h hs
          exact ⟨hw, grantTimesOk_insert (grantTimesOk_tail (hq ▸ hg)) (by simp)⟩
      | genWake =>
          simp only [stepOnce, hq, if_pos ht, handleEv, sched]
          intro hs
          obtain ⟨hw, hg⟩ := h hs
          exact ⟨hw, grantTimesOk_insert
            (grantTimesOk_insert (grantTimesOk_tail (hq ▸ hg)) (by simp)) (by simp)⟩
      | custStart c =>
          simp only [stepOnce, hq, if_pos ht, handleEv]
          by_cases h1 : cfg.maxQueueLength ≤ st.waitList.length
          · simp only [if_pos h1]
            intro hs
            obtain ⟨hw, hg⟩ := h hs
            exact ⟨hw, grantTimesOk_tail (hq ▸ hg)⟩
          · by_cases h2 : st.held < cfg.numTellers
            · simp only [if_neg h1, if_pos h2, sched]
              intro hs
              obtain ⟨hw, hg⟩ := h hs
              refine ⟨hw, grantTimesOk_insert
                (grantTimesOk_insert (grantTimesOk_tail (hq ▸ hg)) ?_) (by simp)⟩
              intro c' arr' hpl
              simp only [Payload.custGranted.injEq] at hpl
              exact hpl.2
            · simp only [if_neg h1, if_neg h2, sched]
              intro hs
              obtain ⟨hw, hg⟩ := h hs
              exact ⟨hw, grantTimesOk_insert (grantTimesOk_tail (hq ▸ hg)) (by simp)⟩
      | custGranted c arr =>
          simp only [stepOnce, hq, if_pos ht, handleEv, sched]
          intro hs
          obtain ⟨hw, hg⟩ := h hs
          have htarr : t = arr :=
            hg _ (hq ▸ List.mem_cons_self _ _) c arr rfl
          refine ⟨?_, grantTimesOk_insert (grantTimesOk_tail (hq ▸ hg)) (by simp)⟩
          intro w hwmem
          simp only [List.mem_append, List.mem_singleton] at hwmem
          rcases hwmem with hwmem | hwmem
          · exact hw w hwmem
          · rw [hwmem, htarr, sub_self]
      | custPatience c =>
          simp only [stepOnce, hq, if_pos ht, handleEv]
          by_cases hwany : st.waitList.any (fun p => p.1 == c) = true
          · simp only [if_pos hwany]
            intro hs
            obtain ⟨hw, hg⟩ := h hs
            exact ⟨hw, grantTimesOk_tail (hq ▸ hg)⟩
          · simp only [if_neg hwany]
            intro hs
            obtain ⟨hw, hg⟩ := h hs
            exact ⟨hw, grantTimesOk_tail (hq ▸ hg)⟩
      | custDone c =>
          simp only [stepOnce, hq, if_pos ht, handleEv]
          rcases hwl : st.waitList with _ | ⟨⟨r, arr⟩, wrest⟩
          · intro hs
            simp at hs
          · simp only [sched]
            intro hs
            simp at hs
      | monWake =>
          simp only [stepOnce, hq, if_pos ht, handleEv, sched]
          intro hs
          obtain ⟨hw, hg⟩ := h hs
          exact ⟨hw, grantTimesOk_insert (grantTimesOk_tail (hq ▸ hg)) (by simp)⟩
    · simpa [stepOnce, hq, if_neg ht] using h

theorem zeroWaitInv_runSteps (cfg : Config) (s : ℕ → ℚ) (fuel : ℕ) (st : SimState)
    (h : zeroWaitInv st) : zeroWaitInv (runSteps cfg s fuel st) := by
  induction fuel generalizing st with
  | zero => exact h
  | succ n ih => exact ih _ (zeroWaitInv_stepOnce cfg s st h)

theorem zeroWaitInv_run (cfg : Config) (s : ℕ → ℚ) (fuel : ℕ) :
    zeroWaitInv (run_simulation cfg s fuel) := by
  refine zeroWaitInv_runSteps cfg s fuel initState ?_
  intro hs
  refine ⟨by simp [initState], ?_⟩
  intro e he c arr hpl
  simp only [initState, List.mem_cons, List.mem_singleton] at he
  rcases he with he | he | he
  · rw [he] at hpl
    simp at hpl
  · rw [he] at hpl
    simp at hpl
  · exact absurd he (List.not_mem_nil e)

/-! ## Busy time is a sum of drawn durations, so it is non-negative for
non-negative draws -/

theorem busy_nonneg_stepOnce (cfg : Config) (s : ℕ → ℚ) (st : SimState)
    (hpos : ∀ n, 0 ≤ s n) (h : 0 ≤ st.busy) : 0 ≤ (stepOnce cfg s st).busy := by
  rcases hq : st.queue with _ | ⟨e, rest⟩
  · simpa [stepOnce, hq] using h
  · obtain ⟨t, pr, eid, pl⟩ := e
    by_cases ht : t < cfg.simulationTime
    · cases pl with
      | genStart => simpa [stepOnce, hq, if_pos ht, handleEv, sched] using h
      | genWake => simpa [stepOnce, hq, if_pos ht, handleEv, sched] using h
      | custStart c =>
          simp only [stepOnce, hq, if_pos ht, handleEv]
          by_cases h1 : cfg.maxQueueLength ≤ st.waitList.length
          · simpa [if_pos h1] using h
          · by_cases h2 : st.held < cfg.numTellers
            · simpa [if_neg h1, if_pos h2, sched] using h
            · simpa [if_neg h1, if_neg h2, sched] using h
      | custGranted c arr =>
          simp only [stepOnce, hq, if_pos ht, handleEv, sched]
          exact add_nonneg h (hpos _)
      | custPatience c =>
          simp only [stepOnce, hq, if_pos ht, handleEv]
          by_cases hwany : st.waitList.any (fun p => p.1 == c) = true
          · simpa [if_pos hwany] using h
          · simpa [if_neg hwany] using h
      | custDone c =>
          simp only [stepOnce, hq, if_pos ht, handleEv]
          rcases hwl : st.waitList with _ | ⟨⟨r, arr⟩, wrest⟩
          · simpa using h
          · simpa [sched] using h
      | monWake => simpa [stepOnce, hq, if_pos ht, handleEv, sched] using h
    · simpa [stepOnce, hq, if_neg ht] using h

theorem busy_nonneg_run (cfg : Config) (s : ℕ → ℚ) (fuel : ℕ)
    (hpos : ∀ n, 0 ≤ s n) : 0 ≤ (run_simulation cfg s fuel).busy := by
  suffices hgen : ∀ st, 0 ≤ st.busy → 0 ≤ (runSteps cfg s fuel st).busy by
    exact hgen initState (by simp [initState])
  induction fuel with
  | zero => exact fun st h => h
  | succ n ih => exact fun st h => ih _ (busy_nonneg_stepOnce cfg s st hpos h)

/-! ## The per-customer occurrence invariant: every spawned customer is in
exactly one place, so a race resolves at most once -/

/-- Pending events that "belong" to customer `c` before its race resolves:
its initialization and its grant resumption. -/
def plOf (c : ℕ) : Payload → Bool
  | .custStart c' => c' == c
  | .custGranted c' _ => c' == c
  | _ => false

/-- Log entries resolving customer `c`'s state machine: balked, granted or
reneged (`doneAt` follows a `grantedAt` and `staleAt` resolves nothing). -/
def resOf (c : ℕ) : LogEntry → Bool
  | .balkedAt c' _ => c' == c
  | .grantedAt c' _ => c' == c
  | .renegedAt c' _ => c' == c
  | _ => false

/-- Places customer `c` currently occupies: a pending initialization or
grant event, a wait-list entry, or a resolution in the log. -/
def occ (c : ℕ) (st : SimState) : ℕ :=
  qcount (plOf c) st.queue + st.waitList.countP (fun p => p.1 == c)
    + st.log.countP (resOf c)

/-- Customer ids are `1, 2, ..., nextCust`; each spawned customer occupies
exactly one place, unspawned ids none. -/
def occInv (st : SimState) : Prop :=
  ∀ c, occ c st = if 1 ≤ c ∧ c ≤ st.nextCust then 1 else 0

theorem occInv_stepOnce (cfg : Config) (s : ℕ → ℚ) (st : SimState)
    (h : occInv st) : occInv (stepOnce cfg s st) := by
  rcases hq : st.queue with _ | ⟨e, rest⟩
  · simpa [stepOnce, hq] using h
  · obtain ⟨t, pr, eid, pl⟩ := e
    by_cases ht : t < cfg.simulationTime
    · cases pl with
      | genStart =>
          intro c
          have hc := h c
          rw [occ, hq, qcount_cons] at hc
          simp only [stepOnce, hq, if_pos ht, handleEv, sched, occ, qcount_insertEv]
          simp only [plOf] at hc ⊢
          simp [plOf, resOf] at hc ⊢
          omega
      | genWake =>
          intro c
          have hc := h c
          rw [occ, hq, qcount_cons] at hc
          simp only [stepOnce, hq, if_pos ht, handleEv, sched, occ, qcount_insertEv]
          simp only [plOf] at hc ⊢
          simp [plOf, resOf] at hc ⊢
          split_ifs at hc ⊢ <;> omega
      | custStart c' =>
          intro c
          have hc := h c
          rw [occ, hq, qcount_cons] at hc
          simp only [stepOnce, hq, if_pos ht, handleEv]
          by_cases h1 : cfg.maxQueueLength ≤ st.waitList.length
          · simp only [if_pos h1, occ, List.countP_append]
            simp only [plOf, resOf] at hc ⊢
            simp [List.countP_cons, plOf, resOf] at hc ⊢
            split_ifs at hc ⊢ <;> omega
          · by_cases h2 : st.held < cfg.numTellers
            · simp only [if_neg h1, if_pos h2, sched, occ, qcount_insertEv]
              simp only [plOf] at hc ⊢
              simp [plOf, resOf] at hc ⊢
              split_ifs at hc ⊢ <;> omega
            · simp only [if_neg h1, if_neg h2, sched, occ, qcount_insertEv,
                List.countP_append]
              simp only [plOf] at hc ⊢
              simp [List.countP_cons, plOf, resOf] at hc ⊢
              split_ifs at hc ⊢ <;> omega
      | custGranted c' arr =>
          intro c
          have hc := h c
          rw [occ, hq, qcount_cons] at hc
          simp only [stepOnce, hq, if_pos ht, handleEv, sched, occ, qcount_insertEv,
            List.countP_append]
          simp only [plOf, resOf] at hc ⊢
          simp [List.countP_cons, plOf, resOf] at hc ⊢
          split_ifs at hc ⊢ <;> omega
      | custPatience c' =>
          intro c
          have hc := h c
          rw [occ, hq, qcount_cons] at hc
          simp only [stepOnce, hq, if_pos ht, handleEv]
          by_cases hwany : st.waitList.any (fun p => p.1 == c') = true
          · simp only [if_pos hwany, occ, List.countP_append]
            by_cases hcc : c' = c
            · subst hcc
              have hdrop := countP_dropReq_self c' st.waitList hwany
              simp only [plOf, resOf] at hc ⊢
              simp [List.countP_cons, plOf, resOf] at hc hdrop ⊢
              split_ifs at hc ⊢ <;> omega
            · have hdrop := countP_dropReq_ne c' c (fun hcontra => hcc hcontra.symm)
                st.waitList
              simp only [plOf, resOf] at hc ⊢
              simp [List.countP_cons, plOf, resOf] at hc hdrop ⊢
              rw [hdrop]
              split_ifs at hc ⊢ <;> omega
          · simp only [if_neg hwany, occ, List.countP_append]
            simp only [plOf, resOf] at hc ⊢
            simp [List.countP_cons, plOf, resOf] at hc ⊢
            split_ifs at hc ⊢ <;> omega
      | custDone c' =>
          intro c
          have hc := h c
          rw [occ, hq, qcount_cons] at hc
          simp only [stepOnce, hq, if_pos ht, handleEv]
          rcases hwl : st.waitList with _ | ⟨⟨r, arr⟩, wrest⟩
          · simp only [occ, List.countP_append]
            rw [hwl] at hc
            simp only [plOf, resOf] at hc ⊢
            simp [List.countP_cons, plOf, resOf] at hc ⊢
            split_ifs at hc ⊢ <;> omega
          · simp only [sched, occ, qcount_insertEv, List.countP_append]
            rw [hwl] at hc
            simp only [plOf, resOf] at hc ⊢
            simp [List.countP_cons, plOf, resOf] at hc ⊢
            split_ifs at hc ⊢ <;> omega
      | monWake =>
          intro c
          have hc := h c
          rw [occ, hq, qcount_cons] at hc
          simp only [stepOnce, hq, if_pos ht, handleEv, sched, occ, qcount_insertEv]
          simp only [plOf] at hc ⊢
          simp [plOf, resOf] at hc ⊢
          omega
    · intro c
      have hc := h c
      simp only [stepOnce, hq, if_neg ht]
      exact hc

theorem occInv_runSteps (cfg : Config) (s : ℕ → ℚ) (fuel : ℕ) (st : SimState)
    (h : occInv st) : occInv (runSteps cfg s fuel st) := by
  induction fuel generalizing st with
  | zero => exact h
  | succ n ih => exact ih _ (occInv_stepOnce cfg s st h)

theorem occInv_run (cfg : Config) (s : ℕ → ℚ) (fuel : ℕ) :
    occInv (run_simulation cfg s fuel) := by
  refine occInv_runSteps cfg s fuel initState ?_
  intro c
  simp [occ, initState, qcount, plOf, isMonEv]
  split_ifs <;> omega

/-! ## Splitting the resolution count by outcome -/

def balkedOf (c : ℕ) : LogEntry → Bool
  | .balkedAt c' _ => c' == c
  | _ => false

def grantedOf (c : ℕ) : LogEntry → Bool
  | .grantedAt c' _ => c' == c
  | _ => false

def renegedOf (c : ℕ) : LogEntry → Bool
  | .renegedAt c' _ => c' == c
  | _ => false

theorem countP_resOf_split (c : ℕ) (l : List LogEntry) :
    l.countP (resOf c) =
      l.countP (balkedOf c) + l.countP (grantedOf c) + l.countP (renegedOf c) := by
  induction l with
  | nil => simp
  | cons e rest ih =>
      cases e <;>
        simp [List.countP_cons, resOf, balkedOf, grantedOf, renegedOf, ih] <;>
        split_ifs <;> omega

/-- In any run, each customer is resolved at most once across the three
outcomes. -/
theorem resolutions_le_one (cfg : Config) (s : ℕ → ℚ) (fuel : ℕ) (c : ℕ) :
    (run_simulation cfg s fuel).log.countP (balkedOf c)
      + (run_simulation cfg s fuel).log.countP (grantedOf c)
      + (run_simulation cfg s fuel).log.countP (renegedOf c) ≤ 1 := by
  have hocc := occInv_run cfg s fuel c
  rw [← countP_resOf_split]
  have hle : (run_simulation cfg s fuel).log.countP (resOf c)
      ≤ occ c (run_simulation cfg s fuel) := by
    rw [occ]
    omega
  split_ifs at hocc <;> omega

theorem isMonEv_eq_true {pl : Payload} (h : isMonEv pl = true) : pl = .monWake := by
  cases pl <;> simp_all [isMonEv]

theorem runResult_waitTimes (st : SimState) :
    (runResult st).waitTimes = st.waitingTimes := rfl

/-! ## Concrete runs used as inputs for the concrete theorems.

Stream values are the successive `random.expovariate` results in program
order: first inter-arrival delay, next inter-arrival delay, then (per grant)
the busy-time draw of line 45 followed by the hold draw of line 46. -/

def exStream1 : ℕ → ℚ := fun n => [(1 : ℚ), 1000, 7, 2].getD n 0

def exRun1 : SimState := run_simulation defaultConfig exStream1 150

def exStream3 : ℕ → ℚ := fun n => [(99 : ℚ), 1000, 1, 50].getD n 0

def exRun3 : SimState := run_simulation defaultConfig exStream3 150

def exStream4 : ℕ → ℚ := fun n => [(1 : ℚ), 1000, 500, 1].getD n 0

def exRun4 : SimState := run_simulation defaultConfig exStream4 150

def exStream5 : ℕ → ℚ := fun n => [(99 : ℚ), 1000, 1, 50].getD n 0

def exRun5 : SimState := run_simulation defaultConfig exStream5 150

def exStream6 : ℕ → ℚ := fun n => [(1 : ℚ), 1000, 7, 2].getD n 0

def exRun6 : SimState := run_simulation defaultConfig exStream6 150

def exStream9 : ℕ → ℚ := fun _ => 101

/-! ## The claims -/

/-- C1: the claim says the single drawn service duration a served customer
holds the teller for is the value accumulated into busy-time.  The code
draws twice (lines 45 and 46): in this run the only customer is granted at
time 1 and completes at time 3, so it holds a teller for 2 time units, while
busy-time accumulated the independent first draw 7.  The claim is right
about the intent (the spec flags the double draw as a latent inconsistency)
and the code deviates from it. -/
theorem c1_busy_time_uses_second_independent_draw :
    exRun1.served = 1 ∧ exRun1.busy = 7 ∧ servedHoldSum exRun1.log = 2 ∧
    exRun1.busy ≠ servedHoldSum exRun1.log := by decide!

/-- C2: with a fixed configuration and a fixed random stream (the embedding
of "fixed seed": the stream of `random.expovariate` results is a pure
function of the generator state), two runs produce identical `RunResult`
records. -/
theorem c2_identical_seed_identical_result (cfg : Config) (fuel : ℕ)
    (s₁ s₂ : ℕ → ℚ) (h : ∀ n, s₁ n = s₂ n) :
    runResult (run_simulation cfg s₁ fuel) =
      runResult (run_simulation cfg s₂ fuel) := by
  have hs : s₁ = s₂ := funext h
  rw [hs]

theorem c2_identical_seed_identical_result_witness :
    (∀ n : ℕ, (fun _ : ℕ => (1 : ℚ)) n = (fun _ : ℕ => (1 : ℚ)) n) ∧
    runResult (run_simulation defaultConfig (fun _ => 1) 5) =
      runResult (run_simulation defaultConfig (fun _ => 1) 5) :=
  ⟨fun _ => rfl,
    c2_identical_seed_identical_result defaultConfig 5 (fun _ => 1) (fun _ => 1)
      fun _ => rfl⟩

/-- C3 counterexample: in this completed run one arrival was generated
before the horizon (at time 99), but it is still in service when the run
ends, so `served + balked + reneged = 0 ≠ 1`. -/
theorem c3_counterexample :
    completedRun defaultConfig exRun3 = true ∧
    exRun3.nextCust = 1 ∧
    exRun3.served + exRun3.balked + exRun3.reneged = 0 := by decide!

/-- C3 (amended): at run end `served + balked + reneged` is at most the
number of arrival events generated before the horizon (`nextCust`, the `i`
counter of the generator); equality fails when customers are still waiting
or in service at the horizon. -/
theorem c3_outcomes_at_most_arrivals (cfg : Config) (s : ℕ → ℚ) (fuel : ℕ) :
    (run_simulation cfg s fuel).served + (run_simulation cfg s fuel).balked
        + (run_simulation cfg s fuel).reneged
      ≤ (run_simulation cfg s fuel).nextCust := by
  have h := accounting_run cfg s fuel
  rw [accounting] at h
  omega

/-- C4 counterexample: busy-time accumulates a full independent draw at the
moment of each grant, so in this completed run busy-time is 500 and the
reported utilization is 500 / (2 × 100) = 5/2 > 1. -/
theorem c4_counterexample :
    completedRun defaultConfig exRun4 = true ∧
    server_utilization (runResult exRun4) = 5 / 2 ∧
    ¬ server_utilization (runResult exRun4) ≤ 1 := by decide!

/-- C4 (amended): the reported utilization equals
busy-time / (NUM_TELLERS × SIMULATION_TIME) and is non-negative for
non-negative draws, but it does not always lie in [0, 1]. -/
theorem c4_utilization_formula_and_nonneg (s : ℕ → ℚ) (fuel : ℕ)
    (hpos : ∀ n, 0 ≤ s n) :
    server_utilization (runResult (run_simulation defaultConfig s fuel)) =
      (run_simulation defaultConfig s fuel).busy
        / ((NUM_TELLERS : ℚ) * SIMULATION_TIME) ∧
    0 ≤ server_utilization (runResult (run_simulation defaultConfig s fuel)) := by
  refine ⟨rfl, ?_⟩
  have hb := busy_nonneg_run defaultConfig s fuel hpos
  rw [server_utilization, runResult]
  apply div_nonneg hb
  norm_num [NUM_TELLERS, SIMULATION_TIME]

theorem c4_utilization_formula_and_nonneg_witness :
    (∀ n : ℕ, 0 ≤ (fun _ : ℕ => (1 : ℚ)) n) ∧
    0 ≤ server_utilization (runResult (run_simulation defaultConfig (fun _ => 1) 20)) :=
  ⟨fun _ => by norm_num,
    (c4_utilization_formula_and_nonneg (fun _ => 1) 20 fun _ => by norm_num).2⟩

/-- C5: the reported average waiting time is the arithmetic mean of the
recorded wait times when any exist, and it is 0 whenever no customer was
served: while `served = 0` no teller has ever been released, so every grant
so far was immediate and every recorded wait time is 0. -/
theorem c5_avg_wait_is_mean_and_zero_when_none_served (cfg : Config)
    (s : ℕ → ℚ) (fuel : ℕ) :
    ((run_simulation cfg s fuel).waitingTimes ≠ [] →
      avg_waiting_time (runResult (run_simulation cfg s fuel)) =
        (run_simulation cfg s fuel).waitingTimes.sum
          / ((run_simulation cfg s fuel).waitingTimes.length : ℚ)) ∧
    ((run_simulation cfg s fuel).served = 0 →
      avg_waiting_time (runResult (run_simulation cfg s fuel)) = 0) := by
  constructor
  · intro hne
    rw [avg_waiting_time, runResult_waitTimes, if_neg hne]
  · intro hs
    obtain ⟨hw, -⟩ := zeroWaitInv_run cfg s fuel hs
    rw [avg_waiting_time, runResult_waitTimes]
    split_ifs with hemp
    · rfl
    · rw [List.sum_eq_zero hw, zero_div]

theorem c5_avg_wait_witness :
    exRun5.waitingTimes ≠ [] ∧
    avg_waiting_time (runResult exRun5) =
      exRun5.waitingTimes.sum / (exRun5.waitingTimes.length : ℚ) ∧
    exRun5.served = 0 ∧
    avg_waiting_time (runResult exRun5) = 0 :=
  ⟨by decide!,
   (c5_avg_wait_is_mean_and_zero_when_none_served defaultConfig exStream5 150).1
      (by decide!),
   by decide!,
   (c5_avg_wait_is_mean_and_zero_when_none_served defaultConfig exStream5 150).2
      (by decide!)⟩

/-- C6 counterexample: the claim says that when the grant wins the race the
patience timeout is canceled and never fires.  SimPy never cancels the
timeout: in this run customer 1 is granted at time 1, yet its patience
timeout still fires (is processed) at time 7 — harmlessly, as a stale
event. -/
theorem c6_counterexample :
    LogEntry.grantedAt 1 1 ∈ exRun6.log ∧
    LogEntry.staleAt 1 7 ∈ exRun6.log ∧
    exRun6.reneged = 0 := by decide!

/-- C6 (amended): every race has at most one winner — across any run, no
customer is both granted and reneged (in particular, a request withdrawn by
the timeout is never granted afterward, and a timeout firing after a grant
never reneges the customer). -/
theorem c6_race_has_single_winner (cfg : Config) (s : ℕ → ℚ) (fuel : ℕ)
    (c : ℕ) :
    (run_simulation cfg s fuel).log.countP (grantedOf c)
      + (run_simulation cfg s fuel).log.countP (renegedOf c) ≤ 1 := by
  have h := resolutions_le_one cfg s fuel c
  omega

/-- C7: a customer arriving while the wait list is at or above
MAX_QUEUE_LENGTH deterministically balks: the balked counter is incremented,
and no resource request is issued — the pool's held count and wait list are
untouched and no event is scheduled for that customer. -/
theorem c7_full_queue_means_balk (cfg : Config) (s : ℕ → ℚ) (st : SimState)
    (e : Ev) (rest : List Ev) (c : ℕ)
    (hq : st.queue = e :: rest) (hpl : e.pl = .custStart c)
    (ht : e.time < cfg.simulationTime)
    (hfull : cfg.maxQueueLength ≤ st.waitList.length) :
    (stepOnce cfg s st).balked = st.balked + 1 ∧
    (stepOnce cfg s st).held = st.held ∧
    (stepOnce cfg s st).waitList = st.waitList ∧
    (stepOnce cfg s st).queue = rest ∧
    (stepOnce cfg s st).log = st.log ++ [.balkedAt c e.time] := by
  obtain ⟨t, pr, eid, pl⟩ := e
  simp only at hpl
  subst hpl
  simp [stepOnce, hq, if_pos ht, handleEv, if_pos hfull]

def c7state : SimState :=
  { now := 0
    queue := [⟨5, 0, 9, .custStart 4⟩]
    nextEid := 10
    nextCust := 4
    streamIdx := 0
    held := 2
    waitList := [(1, 0), (2, 0), (3, 0)]
    balked := 0
    reneged := 0
    served := 0
    waitingTimes := []
    queueLengths := []
    busy := 0
    log := [] }

theorem c7_full_queue_means_balk_witness :
    (stepOnce defaultConfig (fun _ => 1) c7state).balked = c7state.balked + 1 ∧
    (stepOnce defaultConfig (fun _ => 1) c7state).held = c7state.held ∧
    (stepOnce defaultConfig (fun _ => 1) c7state).waitList = c7state.waitList ∧
    (stepOnce defaultConfig (fun _ => 1) c7state).queue = [] ∧
    (stepOnce defaultConfig (fun _ => 1) c7state).log =
      c7state.log ++ [.balkedAt 4 (5 : ℚ)] :=
  c7_full_queue_means_balk defaultConfig (fun _ => 1) c7state
    ⟨5, 0, 9, .custStart 4⟩ [] 4 rfl rfl (by decide!) (by decide!)

/-- C8: at every point of every run the number of held teller units lies in
[0, capacity]; quantifying over the fuel bound visits the state after every
processed event. -/
theorem c8_held_units_within_capacity (cfg : Config) (s : ℕ → ℚ) (fuel : ℕ) :
    0 ≤ (run_simulation cfg s fuel).held ∧
    (run_simulation cfg s fuel).held ≤ cfg.numTellers :=
  ⟨Nat.zero_le _, (heldInv_run cfg s fuel).2⟩

/-- C9: every monitor sample is non-negative and at most MAX_QUEUE_LENGTH,
and a completed run at the program's horizon of 100 with sampling interval 1
records exactly 100 samples. -/
theorem c9_monitor_sample_bounds_and_count (s : ℕ → ℚ) (fuel : ℕ) :
    (∀ q ∈ (run_simulation defaultConfig s fuel).queueLengths,
        0 ≤ q ∧ q ≤ MAX_QUEUE_LENGTH) ∧
    (completedRun defaultConfig (run_simulation defaultConfig s fuel) = true →
      (run_simulation defaultConfig s fuel).queueLengths.length = 100) := by
  constructor
  · intro q hq
    exact ⟨Nat.zero_le _, (qlenInv_run defaultConfig s fuel).2 q hq⟩
  · intro hcomp
    obtain ⟨⟨hcnt, htime⟩, hlen⟩ := monLenInv_run s fuel
    have hpos : 0 < qcount isMonEv (run_simulation defaultConfig s fuel).queue := by
      omega
    rw [qcount, List.countP_pos_iff] at hpos
    obtain ⟨e, hmem, hmon⟩ := hpos
    have ht := htime e hmem (isMonEv_eq_true hmon)
    rw [completedRun, List.all_eq_true] at hcomp
    have hle := hcomp e hmem
    rw [decide_eq_true_iff] at hle
    rw [ht] at hle
    have h100 : ((100 : ℕ) : ℚ) ≤
        ((run_simulation defaultConfig s fuel).queueLengths.length : ℚ) := by
      have : defaultConfig.simulationTime = ((100 : ℕ) : ℚ) := by
        norm_num [defaultConfig, SIMULATION_TIME]
      rw [this] at hle
      exact hle
    have hge : 100 ≤ (run_simulation defaultConfig s fuel).queueLengths.length := by
      exact_mod_cast h100
    omega

theorem c9_monitor_sample_bounds_and_count_witness :
    completedRun defaultConfig (run_simulation defaultConfig exStream9 150) = true ∧
    (run_simulation defaultConfig exStream9 150).queueLengths.length = 100 :=
  ⟨by decide!, (c9_monitor_sample_bounds_and_count exStream9 150).2 (by decide!)⟩

/-- C10: wait times are recorded at the moment of the grant, before service,
while `served` is incremented only when the service completes within the
horizon, so `served` plus the number of still-in-service customers equals
the number of recorded wait times, and `served` never exceeds it. -/
theorem c10_served_at_most_recorded_waits (cfg : Config) (s : ℕ → ℚ) (fuel : ℕ) :
    (run_simulation cfg s fuel).served
        + qcount isDoneEv (run_simulation cfg s fuel).queue
      = (run_simulation cfg s fuel).waitingTimes.length ∧
    (run_simulation cfg s fuel).served
      ≤ (run_simulation cfg s fuel).waitingTimes.length := by
  have h := waitCountInv_run cfg s fuel
  rw [waitCountInv] at h
  exact ⟨h, by omega⟩

end Queueing
